import Mathlib

/-!
Verification of the minesweeper game-state engine found in the repository's
`use-minesweeper` hook.  The engine consists of pure board transforms
(`createEmptyBoard`, `placeMines`, `floodReveal`, `checkWin`, `revealAllMines`)
and a controller state machine (`handleCellPress`, `resetGame`, flag-mode
toggle, timer tick).  Boards are 2D arrays of cells in the source; here a board
is embedded as a total function from coordinates to cells, with all operations
guarded by explicit `rows`/`cols` bounds exactly as in the source.  The
unbounded accept/reject sampling loop of `placeMines` consumes an explicit list
of random draws (each draw is a `(row, col)` pair in `[0,rows) × [0,cols)`,
mirroring `Math.floor(Math.random()*rows)`), returning `none` when the list is
exhausted before `mines` mines have been placed; the breadth-first loop of
`floodReveal` runs on fuel that is proved sufficient for every in-bounds start.
-/

/-- The `CellState` union type: `"hidden" | "revealed" | "flagged" | "question"`. -/
inductive CellState where
  | hidden
  | revealed
  | flagged
  | question
deriving DecidableEq, Repr

/-- The `GameStatus` union type: `"idle" | "playing" | "won" | "lost"`. -/
inductive GameStatus where
  | idle
  | playing
  | won
  | lost
deriving DecidableEq, Repr

/-- The `Difficulty` union type: `"beginner" | "intermediate" | "expert"`. -/
inductive Difficulty where
  | beginner
  | intermediate
  | expert
deriving DecidableEq, Repr

/-- The `Cell` interface.  The optional field `isExploded?` is embedded as a
`Bool` that defaults to `false` (absent ↔ `false`). -/
structure Cell where
  isMine : Bool
  state : CellState
  adjacentMines : Nat
  isExploded : Bool := false
deriving DecidableEq, Repr

/-- A board is a total function from `(row, col)` to cells; the source's
`Cell[][]` of dimensions `rows × cols` corresponds to its restriction to
in-bounds coordinates, which is the only part any operation reads or writes. -/
abbrev Board := Nat → Nat → Cell

/-- Functional update of a single cell, the embedding of `newBoard[r][c] = cell`
performed on a fresh copy of the array. -/
def setCell (b : Board) (r c : Nat) (cell : Cell) : Board :=
  fun r' c' => if r' = r ∧ c' = c then cell else b r' c'

/-- The `DifficultyConfig` interface. -/
structure DifficultyConfig where
  rows : Nat
  cols : Nat
  mines : Nat
  label : String
deriving DecidableEq, Repr

/-- The `DIFFICULTY_CONFIGS` record. -/
def DIFFICULTY_CONFIGS : Difficulty → DifficultyConfig
  | .beginner => { rows := 9, cols := 9, mines := 10, label := "初级" }
  | .intermediate => { rows := 16, cols := 16, mines := 40, label := "中级" }
  | .expert => { rows := 16, cols := 30, mines := 99, label := "专家" }

/-- The function `createEmptyBoard(rows, cols)`: every cell
`{isMine: false, state: "hidden", adjacentMines: 0}`.  In the functional
embedding the dimensions do not influence the (constant) cell contents. -/
def createEmptyBoard (_rows _cols : Nat) : Board :=
  fun _ _ => { isMine := false, state := .hidden, adjacentMines := 0 }

/-- The safe-zone test of `placeMines`:
`Math.abs(r - safeRow) <= 1 && Math.abs(c - safeCol) <= 1`, computed over the
integers as in JavaScript. -/
def isSafe (safeRow safeCol r c : Nat) : Bool :=
  decide (((r : Int) - (safeRow : Int)).natAbs ≤ 1) &&
    decide (((c : Int) - (safeCol : Int)).natAbs ≤ 1)

/-- The `while (placed < mines)` accept/reject loop of `placeMines`, consuming
an explicit list of random draws.  A draw `(r, c)` is accepted when
`!newBoard[r][c].isMine && !isSafe(r, c)`, in which case the cell's `isMine`
is set and `placed` is incremented.  Returns `none` when the draw list is
exhausted with fewer than `mines` mines placed (the source would keep
sampling). -/
def placeMinesLoop (mines safeRow safeCol : Nat) :
    Board → Nat → List (Nat × Nat) → Option Board
  | b, placed, draws =>
    if mines ≤ placed then some b
    else
      match draws with
      | [] => none
      | (r, c) :: rest =>
        if !(b r c).isMine && !isSafe safeRow safeCol r c then
          placeMinesLoop mines safeRow safeCol
            (setCell b r c { b r c with isMine := true }) (placed + 1) rest
        else
          placeMinesLoop mines safeRow safeCol b placed rest

/-- The nine offsets `(dr, dc)` with `dr, dc ∈ {-1, 0, 1}` traversed by the
adjacency loops of `placeMines` and the neighbor loops of `floodReveal`
(the source does not skip `(0, 0)`). -/
def neighborOffsets : List (Int × Int) :=
  [(-1, -1), (-1, 0), (-1, 1), (0, -1), (0, 0), (0, 1), (1, -1), (1, 0), (1, 1)]

/-- The eight proper Moore-neighborhood offsets (no `(0, 0)`). -/
def properOffsets : List (Int × Int) :=
  [(-1, -1), (-1, 0), (-1, 1), (0, -1), (0, 1), (1, -1), (1, 0), (1, 1)]

/-- The inner counting loop of `placeMines`: the number of offsets `(dr, dc)`
such that `(r+dr, c+dc)` is in bounds and holds a mine. -/
def countAdjMines (rows cols : Nat) (b : Board) (r c : Nat) : Nat :=
  neighborOffsets.countP fun d =>
    decide (0 ≤ (r : Int) + d.1 ∧ (r : Int) + d.1 < (rows : Int) ∧
      0 ≤ (c : Int) + d.2 ∧ (c : Int) + d.2 < (cols : Int)) &&
    (b ((r : Int) + d.1).toNat ((c : Int) + d.2).toNat).isMine

/-- The same count restricted to the eight proper Moore neighbors (the
specification's phrasing: "the up-to-8 adjacent cells, clipped at board
edges"). -/
def countAdjMines8 (rows cols : Nat) (b : Board) (r c : Nat) : Nat :=
  properOffsets.countP fun d =>
    decide (0 ≤ (r : Int) + d.1 ∧ (r : Int) + d.1 < (rows : Int) ∧
      0 ≤ (c : Int) + d.2 ∧ (c : Int) + d.2 < (cols : Int)) &&
    (b ((r : Int) + d.1).toNat ((c : Int) + d.2).toNat).isMine

/-- The "Calculate adjacent mine counts" phase of `placeMines`: every in-bounds
non-mine cell gets `adjacentMines` recomputed; mine cells (and out-of-bounds
coordinates) are untouched.  The source writes into the same array it reads,
but only `adjacentMines` fields are written while only `isMine` fields are
read, so the pointwise functional rendering is exact. -/
def computeAdjacent (rows cols : Nat) (b : Board) : Board :=
  fun r c =>
    if r < rows ∧ c < cols ∧ (b r c).isMine = false then
      { b r c with adjacentMines := countAdjMines rows cols b r c }
    else b r c

/-- The function `placeMines(board, rows, cols, mines, safeRow, safeCol)`, with the random
source reified as a list of draws. -/
def placeMines (b : Board) (rows cols mines safeRow safeCol : Nat)
    (draws : List (Nat × Nat)) : Option Board :=
  (placeMinesLoop mines safeRow safeCol b 0 draws).map (computeAdjacent rows cols)

/-- The function `checkWin(board, rows, cols)`: `false` as soon as some in-bounds cell has
`!cell.isMine && cell.state !== "revealed"`, else `true`. -/
def checkWin (b : Board) (rows cols : Nat) : Bool :=
  (List.range rows).all fun r =>
    (List.range cols).all fun c =>
      (b r c).isMine || ((b r c).state == CellState.revealed)

/-- The function `revealAllMines(board, rows, cols, explodedRow, explodedCol)`: each
in-bounds mine cell gets `isExploded := true` when it is the exploded cell and
`state := "revealed"` unless currently flagged; all other cells are
untouched. -/
def revealAllMines (b : Board) (rows cols explodedRow explodedCol : Nat) : Board :=
  fun r c =>
    if r < rows ∧ c < cols ∧ (b r c).isMine = true then
      let cell1 :=
        if r = explodedRow ∧ c = explodedCol then { b r c with isExploded := true }
        else b r c
      if (b r c).state ≠ CellState.flagged then { cell1 with state := .revealed }
      else cell1
    else b r c

/-- The neighbor-enqueueing step of `floodReveal` at a zero-adjacency cell
`(r, c)`: every offset whose target is in bounds, unvisited, and currently
`"hidden"` contributes that target to the queue (in source order). -/
def enqueueNeighbors (rows cols : Nat) (b : Board) (r c : Nat)
    (visited : Finset (Nat × Nat)) : List (Nat × Nat) :=
  neighborOffsets.filterMap fun d =>
    if 0 ≤ (r : Int) + d.1 ∧ (r : Int) + d.1 < (rows : Int) ∧
        0 ≤ (c : Int) + d.2 ∧ (c : Int) + d.2 < (cols : Int) ∧
        (((r : Int) + d.1).toNat, ((c : Int) + d.2).toNat) ∉ visited ∧
        (b ((r : Int) + d.1).toNat ((c : Int) + d.2).toNat).state = CellState.hidden
    then some (((r : Int) + d.1).toNat, ((c : Int) + d.2).toNat)
    else none

/-- The `while (queue.length > 0)` loop of `floodReveal`, on fuel.  Besides the
final board it returns the list of coordinates that passed the visited-set
guard (each such coordinate is added to `visited` and processed), so that
"each cell is visited at most once" is a statement about the run itself. -/
def floodAux (rows cols : Nat) :
    Nat → Board → List (Nat × Nat) → Finset (Nat × Nat) →
      Option (Board × List (Nat × Nat))
  | _, b, [], _ => some (b, [])
  | 0, _, _ :: _, _ => none
  | fuel + 1, b, (r, c) :: rest, visited =>
    if (r, c) ∈ visited then
      floodAux rows cols fuel b rest visited
    else
      let visited2 := insert (r, c) visited
      if (b r c).state = CellState.flagged then
        (floodAux rows cols fuel b rest visited2).map fun p => (p.1, (r, c) :: p.2)
      else
        let b2 := setCell b r c { b r c with state := CellState.revealed }
        let queue2 :=
          if (b2 r c).adjacentMines = 0 ∧ (b2 r c).isMine = false then
            rest ++ enqueueNeighbors rows cols b2 r c visited2
          else rest
        (floodAux rows cols fuel b2 queue2 visited2).map fun p => (p.1, (r, c) :: p.2)

/-- Fuel that always suffices for `floodAux` seeded with a single start cell:
each pass over an unvisited cell retires one of the at most `rows*cols + 1`
coordinates that can ever be enqueued and adds at most nine queue entries. -/
def floodFuel (rows cols : Nat) : Nat :=
  9 * (rows * cols + 1) + 1

/-- One full run of the `floodReveal` loop from `(startRow, startCol)`. -/
def floodRun (b : Board) (rows cols startRow startCol : Nat) :
    Option (Board × List (Nat × Nat)) :=
  floodAux rows cols (floodFuel rows cols) b [(startRow, startCol)] ∅

/-- The function `floodReveal(board, rows, cols, startRow, startCol)`.  The fuel default is
never taken for an in-bounds start (`floodRun_isSome`). -/
def floodReveal (b : Board) (rows cols startRow startCol : Nat) : Board :=
  ((floodRun b rows cols startRow startCol).map Prod.fst).getD b

/-- The set of in-bounds coordinates of a `rows × cols` board. -/
def boundsFinset (rows cols : Nat) : Finset (Nat × Nat) :=
  Finset.range rows ×ˢ Finset.range cols

/-- The number of in-bounds cells with `isMine = true`. -/
def mineCount (rows cols : Nat) (b : Board) : Nat :=
  ((boundsFinset rows cols).filter fun p => (b p.1 p.2).isMine = true).card

/-- The number of in-bounds cells with `state = "flagged"`. -/
def flaggedCount (rows cols : Nat) (b : Board) : Nat :=
  ((boundsFinset rows cols).filter fun p => (b p.1 p.2).state = CellState.flagged).card

/-- A canonical draw list enumerating every eligible (in-bounds, non-safe)
cell exactly once. -/
def unsafeDraws (rows cols safeRow safeCol : Nat) : List (Nat × Nat) :=
  ((List.range rows).product (List.range cols)).filter
    fun p => !isSafe safeRow safeCol p.1 p.2

/-- The number of in-bounds cells outside the safe zone of `(safeRow, safeCol)`
(the cells eligible to receive a mine). -/
def unsafeCellCount (rows cols safeRow safeCol : Nat) : Nat :=
  (unsafeDraws rows cols safeRow safeCol).length

/-- The loop of `placeMines` terminates on an (infinite) draw sequence exactly when some
finite prefix of the sequence already supplies enough accepted draws. -/
def placeMinesTerminates (b : Board) (rows cols mines safeRow safeCol : Nat)
    (draws : Nat → Nat × Nat) : Prop :=
  ∃ n, (placeMines b rows cols mines safeRow safeCol
    ((List.range n).map draws)).isSome

/-- The session state owned by `useMinesweeper`: current board, game status,
difficulty, flag counter, elapsed time, flag-mode toggle, and the one-shot
first-click latch (`isFirstClick.current`). -/
structure GameState where
  difficulty : Difficulty
  board : Board
  gameStatus : GameStatus
  flagCount : Int
  elapsedTime : Nat
  isFlagMode : Bool
  isFirstClick : Bool

/-- The hook's initial state: beginner difficulty, empty 9×9 board, `"idle"`,
zero flags, zero elapsed time, flag mode off, first-click latch armed. -/
def initialState : GameState :=
  { difficulty := .beginner
    board := createEmptyBoard 9 9
    gameStatus := .idle
    flagCount := 0
    elapsedTime := 0
    isFlagMode := false
    isFirstClick := true }

/-- The callback `resetGame(newDifficulty?)`. -/
def resetGame (s : GameState) (newDifficulty : Option Difficulty) : GameState :=
  let d := newDifficulty.getD s.difficulty
  let cfg := DIFFICULTY_CONFIGS d
  { difficulty := d
    board := createEmptyBoard cfg.rows cfg.cols
    gameStatus := .idle
    flagCount := 0
    elapsedTime := 0
    isFlagMode := false
    isFirstClick := true }

/-- The dig-mode tail of `handleCellPress`, after the optional first-click mine
placement: losing dig (mine hit → `revealAllMines`, status `"lost"`) or
ordinary dig (`floodReveal`, then `checkWin` possibly setting `"won"`). -/
def digStep (s : GameState) (row col : Nat) (cfg : DifficultyConfig) : GameState :=
  if (s.board row col).isMine then
    { s with board := revealAllMines s.board cfg.rows cfg.cols row col
             gameStatus := .lost }
  else
    let rb := floodReveal s.board cfg.rows cfg.cols row col
    if checkWin rb cfg.rows cfg.cols then { s with board := rb, gameStatus := .won }
    else { s with board := rb }

/-- The callback `handleCellPress(row, col)`.  The result is `none` when the source would
not return a state: an out-of-bounds press (an array access off the grid) or a
first-click whose mine-placement loop never finishes on the supplied draws. -/
def handleCellPress (s : GameState) (row col : Nat) (draws : List (Nat × Nat)) :
    Option GameState :=
  if s.gameStatus = .won ∨ s.gameStatus = .lost then some s
  else
    let cfg := DIFFICULTY_CONFIGS s.difficulty
    if row < cfg.rows ∧ col < cfg.cols then
      let cell := s.board row col
      if s.isFlagMode then
        if cell.state = .revealed then some s
        else if cell.state = .hidden then
          some { s with
            board := setCell s.board row col { cell with state := .flagged }
            flagCount := s.flagCount + 1 }
        else if cell.state = .flagged then
          some { s with
            board := setCell s.board row col { cell with state := .hidden }
            flagCount := s.flagCount - 1 }
        else some s
      else
        if cell.state = .flagged ∨ cell.state = .revealed then some s
        else if s.isFirstClick then
          match placeMines s.board cfg.rows cfg.cols cfg.mines row col draws with
          | none => none
          | some nb =>
            some (digStep
              { s with board := nb, gameStatus := .playing, isFirstClick := false }
              row col cfg)
        else some (digStep s row col cfg)
    else none

/-- One timer tick: `elapsedTime = min(t + 1, 999)` while `"playing"`; the
interval is not running otherwise. -/
def tick (s : GameState) : GameState :=
  if s.gameStatus = .playing then { s with elapsedTime := min (s.elapsedTime + 1) 999 }
  else s

/-- The events the UI can deliver to the controller. -/
inductive Event where
  | press (row col : Nat) (draws : List (Nat × Nat))
  | toggleFlagMode
  | reset (newDifficulty : Option Difficulty)
  | timerTick

/-- One controller transition. -/
def step (s : GameState) : Event → Option GameState
  | .press row col draws => handleCellPress s row col draws
  | .toggleFlagMode => some { s with isFlagMode := !s.isFlagMode }
  | .reset d => some (resetGame s d)
  | .timerTick => some (tick s)

/-- The session states reachable from a fresh session by any event sequence. -/
inductive Reachable : GameState → Prop
  | init : Reachable initialState
  | next {s s' : GameState} {e : Event} :
      Reachable s → step s e = some s' → Reachable s'

/-- The hook's derived value `remainingMines = config.mines - flagCount`. -/
def remainingMines (s : GameState) : Int :=
  ((DIFFICULTY_CONFIGS s.difficulty).mines : Int) - s.flagCount

theorem setCell_self (b : Board) (r c : Nat) (cell : Cell) :
    setCell b r c cell r c = cell := by
  simp [setCell]

theorem setCell_ne (b : Board) (r c : Nat) (cell : Cell) {r' c' : Nat}
    (h : ¬(r' = r ∧ c' = c)) : setCell b r c cell r' c' = b r' c' := by
  simp only [setCell, if_neg h]

/-- Every cell of a board produced by the flood loop is either unchanged or a
non-flagged cell whose state has been overwritten with `"revealed"`. -/
theorem floodAux_pointwise {rows cols : Nat} :
    ∀ (fuel : Nat) (b : Board) (queue : List (Nat × Nat))
      (visited : Finset (Nat × Nat)) (b2 : Board) (ps : List (Nat × Nat)),
      floodAux rows cols fuel b queue visited = some (b2, ps) →
      ∀ r c, b2 r c = b r c ∨
        (b2 r c = { b r c with state := CellState.revealed } ∧
          (b r c).state ≠ CellState.flagged) := by
  intro fuel
  induction fuel with
  | zero =>
    intro b queue visited b2 ps h r c
    cases queue with
    | nil =>
      simp only [floodAux, Option.some.injEq, Prod.mk.injEq] at h
      exact Or.inl (h.1 ▸ rfl)
    | cons q rest => simp [floodAux] at h
  | succ f ih =>
    intro b queue visited b2 ps h r c
    cases queue with
    | nil =>
      simp only [floodAux, Option.some.injEq, Prod.mk.injEq] at h
      exact Or.inl (h.1 ▸ rfl)
    | cons q rest =>
      obtain ⟨qr, qc⟩ := q
      simp only [floodAux] at h
      by_cases hv : (qr, qc) ∈ visited
      · rw [if_pos hv] at h
        exact ih b rest visited b2 ps h r c
      · rw [if_neg hv] at h
        by_cases hfl : (b qr qc).state = CellState.flagged
        · rw [if_pos hfl, Option.map_eq_some'] at h
          obtain ⟨⟨b1, ps1⟩, hrec, heq⟩ := h
          obtain ⟨hb, -⟩ := Prod.mk.injEq .. ▸ heq
          exact hb ▸ ih b rest _ b1 ps1 hrec r c
        · rw [if_neg hfl, Option.map_eq_some'] at h
          obtain ⟨⟨b1, ps1⟩, hrec, heq⟩ := h
          obtain ⟨hb, -⟩ := Prod.mk.injEq .. ▸ heq
          subst hb
          have hrec2 := ih _ _ _ _ _ hrec r c
          by_cases hrc : r = qr ∧ c = qc
          · obtain ⟨rfl, rfl⟩ := hrc
            rw [setCell_self] at hrec2
            rcases hrec2 with h1 | ⟨h1, -⟩ <;>
              exact Or.inr ⟨h1, hfl⟩
          · rw [setCell_ne _ _ _ _ hrc] at hrec2
            exact hrec2

/-- The coordinates processed by the flood loop (those that pass the
visited-set guard) are pairwise distinct and disjoint from the incoming
visited set. -/
theorem floodAux_processed {rows cols : Nat} :
    ∀ (fuel : Nat) (b : Board) (queue : List (Nat × Nat))
      (visited : Finset (Nat × Nat)) (b2 : Board) (ps : List (Nat × Nat)),
      floodAux rows cols fuel b queue visited = some (b2, ps) →
      ps.Nodup ∧ ∀ p ∈ ps, p ∉ visited := by
  intro fuel
  induction fuel with
  | zero =>
    intro b queue visited b2 ps h
    cases queue with
    | nil =>
      simp only [floodAux, Option.some.injEq, Prod.mk.injEq] at h
      rw [← h.2]
      simp
    | cons q rest => simp [floodAux] at h
  | succ f ih =>
    intro b queue visited b2 ps h
    cases queue with
    | nil =>
      simp only [floodAux, Option.some.injEq, Prod.mk.injEq] at h
      rw [← h.2]
      simp
    | cons q rest =>
      obtain ⟨qr, qc⟩ := q
      simp only [floodAux] at h
      by_cases hv : (qr, qc) ∈ visited
      · rw [if_pos hv] at h
        exact ih b rest visited b2 ps h
      · rw [if_neg hv] at h
        have main : ∀ (b' : Board) (queue' : List (Nat × Nat)) b1 ps1,
            floodAux rows cols f b' queue' (insert (qr, qc) visited) = some (b1, ps1) →
            ps = (qr, qc) :: ps1 → ps.Nodup ∧ ∀ p ∈ ps, p ∉ visited := by
          intro b' queue' b1 ps1 hrec hps
          obtain ⟨hnd, hdis⟩ := ih b' queue' _ b1 ps1 hrec
          subst hps
          refine ⟨List.nodup_cons.2 ⟨fun hmem => ?_, hnd⟩, ?_⟩
          · exact hdis _ hmem (Finset.mem_insert_self _ _)
          · intro p hp
            rcases List.mem_cons.1 hp with rfl | hp'
            · exact hv
            · exact fun hpv => hdis p hp' (Finset.mem_insert_of_mem hpv)
        by_cases hfl : (b qr qc).state = CellState.flagged
        · rw [if_pos hfl, Option.map_eq_some'] at h
          obtain ⟨⟨b1, ps1⟩, hrec, heq⟩ := h
          have hps : ps = (qr, qc) :: ps1 := (Prod.mk.injEq .. ▸ heq).2.symm
          exact main b rest b1 ps1 hrec hps
        · rw [if_neg hfl, Option.map_eq_some'] at h
          obtain ⟨⟨b1, ps1⟩, hrec, heq⟩ := h
          have hps : ps = (qr, qc) :: ps1 := (Prod.mk.injEq .. ▸ heq).2.symm
          exact main _ _ b1 ps1 hrec hps

theorem enqueueNeighbors_length_le (rows cols : Nat) (b : Board) (r c : Nat)
    (visited : Finset (Nat × Nat)) :
    (enqueueNeighbors rows cols b r c visited).length ≤ 9 := by
  have h := List.length_filterMap_le
    (fun d : Int × Int =>
      if 0 ≤ (r : Int) + d.1 ∧ (r : Int) + d.1 < (rows : Int) ∧
          0 ≤ (c : Int) + d.2 ∧ (c : Int) + d.2 < (cols : Int) ∧
          (((r : Int) + d.1).toNat, ((c : Int) + d.2).toNat) ∉ visited ∧
          (b ((r : Int) + d.1).toNat ((c : Int) + d.2).toNat).state = CellState.hidden
      then some (((r : Int) + d.1).toNat, ((c : Int) + d.2).toNat)
      else none) neighborOffsets
  simpa [enqueueNeighbors, neighborOffsets] using h

theorem mem_enqueueNeighbors {rows cols : Nat} {b : Board} {r c : Nat}
    {visited : Finset (Nat × Nat)} {p : Nat × Nat}
    (h : p ∈ enqueueNeighbors rows cols b r c visited) :
    p.1 < rows ∧ p.2 < cols := by
  rw [enqueueNeighbors, List.mem_filterMap] at h
  obtain ⟨d, -, hd⟩ := h
  by_cases hcond : 0 ≤ (r : Int) + d.1 ∧ (r : Int) + d.1 < (rows : Int) ∧
      0 ≤ (c : Int) + d.2 ∧ (c : Int) + d.2 < (cols : Int) ∧
      (((r : Int) + d.1).toNat, ((c : Int) + d.2).toNat) ∉ visited ∧
      (b ((r : Int) + d.1).toNat ((c : Int) + d.2).toNat).state = CellState.hidden
  · rw [if_pos hcond] at hd
    obtain ⟨h1, h2, h3, h4, -, -⟩ := hcond
    cases Option.some.injEq .. ▸ hd
    constructor <;> simp only [] <;> omega
  · rw [if_neg hcond] at hd
    exact absurd hd (by simp)

/-- Fuel sufficiency for the flood loop: whenever every queued coordinate lies
in a finite universe `U` that contains all in-bounds coordinates, fuel
`9 * (|U| - |visited ∩ U|) + |queue|` suffices for the loop to finish. -/
theorem floodAux_isSome {rows cols : Nat} (U : Finset (Nat × Nat))
    (hU : ∀ p : Nat × Nat, p.1 < rows → p.2 < cols → p ∈ U) :
    ∀ (fuel : Nat) (b : Board) (queue : List (Nat × Nat))
      (visited : Finset (Nat × Nat)),
      (∀ q ∈ queue, q ∈ U) →
      9 * (U.card - (visited ∩ U).card) + queue.length ≤ fuel →
      (floodAux rows cols fuel b queue visited).isSome := by
  intro fuel
  induction fuel with
  | zero =>
    intro b queue visited hqueue hmeas
    cases queue with
    | nil => simp [floodAux]
    | cons q rest => simp only [List.length_cons] at hmeas; omega
  | succ f ih =>
    intro b queue visited hqueue hmeas
    cases queue with
    | nil => simp [floodAux]
    | cons q rest =>
      obtain ⟨qr, qc⟩ := q
      simp only [List.length_cons] at hmeas
      simp only [floodAux]
      by_cases hv : (qr, qc) ∈ visited
      · rw [if_pos hv]
        refine ih b rest visited (fun q hq => hqueue q (List.mem_cons_of_mem _ hq)) ?_
        omega
      · rw [if_neg hv]
        have hqU : (qr, qc) ∈ U := hqueue _ (List.mem_cons_self _ _)
        have hnotin : (qr, qc) ∉ visited ∩ U := fun hx => hv (Finset.mem_inter.1 hx).1
        have hcard1 : ((insert (qr, qc) visited) ∩ U).card = (visited ∩ U).card + 1 := by
          rw [Finset.insert_inter_of_mem hqU, Finset.card_insert_of_not_mem hnotin]
        have hcard2 : (visited ∩ U).card + 1 ≤ U.card := by
          have hsub : insert (qr, qc) (visited ∩ U) ⊆ U :=
            Finset.insert_subset hqU Finset.inter_subset_right
          calc (visited ∩ U).card + 1
              = (insert (qr, qc) (visited ∩ U)).card :=
                (Finset.card_insert_of_not_mem hnotin).symm
            _ ≤ U.card := Finset.card_le_card hsub
        by_cases hfl : (b qr qc).state = CellState.flagged
        · rw [if_pos hfl, Option.isSome_map']
          refine ih b rest _ (fun q hq => hqueue q (List.mem_cons_of_mem _ hq)) ?_
          omega
        · rw [if_neg hfl, Option.isSome_map']
          set b2 := setCell b qr qc { b qr qc with state := CellState.revealed } with hb2
          by_cases hz : (b2 qr qc).adjacentMines = 0 ∧ (b2 qr qc).isMine = false
          · rw [if_pos hz]
            have hlen := enqueueNeighbors_length_le rows cols b2 qr qc
              (insert (qr, qc) visited)
            refine ih b2 _ _ ?_ ?_
            · intro q hq
              rcases List.mem_append.1 hq with hq' | hq'
              · exact hqueue q (List.mem_cons_of_mem _ hq')
              · obtain ⟨h1, h2⟩ := mem_enqueueNeighbors hq'
                exact hU q h1 h2
            · rw [List.length_append]
              omega
          · rw [if_neg hz]
            refine ih b2 rest _ (fun q hq => hqueue q (List.mem_cons_of_mem _ hq)) ?_
            omega

/-- For every in-bounds start, the flood loop finishes on the stock fuel. -/
theorem floodRun_isSome (b : Board) {rows cols startRow startCol : Nat}
    (hr : startRow < rows) (hc : startCol < cols) :
    (floodRun b rows cols startRow startCol).isSome := by
  have hU : ∀ p : Nat × Nat, p.1 < rows → p.2 < cols → p ∈ boundsFinset rows cols := by
    intro p h1 h2
    simp [boundsFinset, Finset.mem_product, h1, h2]
  have hcard : (boundsFinset rows cols).card = rows * cols := by
    simp [boundsFinset]
  refine floodAux_isSome (boundsFinset rows cols) hU (floodFuel rows cols) b
    [(startRow, startCol)] ∅ ?_ ?_
  · intro q hq
    rcases List.mem_singleton.1 hq with rfl
    exact hU _ hr hc
  · simp only [Finset.empty_inter, Finset.card_empty, List.length_singleton,
      floodFuel, hcard]
    omega

/-- C4: `floodReveal` never changes the state of a flagged cell, and when the
start cell is itself flagged the returned board equals the input board at
every coordinate. -/
theorem floodReveal_blocks_flags (b : Board) (rows cols startRow startCol : Nat)
    (hr : startRow < rows) (hc : startCol < cols) :
    (∀ r c, (b r c).state = CellState.flagged →
      floodReveal b rows cols startRow startCol r c = b r c) ∧
    ((b startRow startCol).state = CellState.flagged →
      ∀ r c, floodReveal b rows cols startRow startCol r c = b r c) := by
  constructor
  · intro r c hfl
    rcases hfr : floodRun b rows cols startRow startCol with - | ⟨b2, ps⟩
    · simp [floodReveal, hfr]
    · rw [floodRun] at hfr
      have hpw := floodAux_pointwise (floodFuel rows cols) b
        [(startRow, startCol)] ∅ b2 ps hfr r c
      have : floodReveal b rows cols startRow startCol = b2 := by
        simp [floodReveal, floodRun, hfr]
      rw [this]
      rcases hpw with h1 | ⟨-, h2⟩
      · exact h1
      · exact absurd hfl h2
  · intro hflag r c
    have hrun : floodRun b rows cols startRow startCol =
        some (b, [(startRow, startCol)]) := by
      simp only [floodRun, floodFuel]
      simp [floodAux, hflag]
    simp [floodReveal, hrun]

/-- Witness for `floodReveal_blocks_flags` at a concrete flagged start. -/
theorem floodReveal_blocks_flags_case :
    floodReveal (setCell (createEmptyBoard 2 2) 0 0
      { isMine := false, state := .flagged, adjacentMines := 0 }) 2 2 0 0 1 1 =
      (setCell (createEmptyBoard 2 2) 0 0
        { isMine := false, state := .flagged, adjacentMines := 0 }) 1 1 :=
  (floodReveal_blocks_flags _ 2 2 0 0 (by decide) (by decide)).2 (by decide) 1 1

/-- C5: for every board and in-bounds start, the breadth-first flood loop
finishes on the stock fuel and the coordinates it processes (marks visited and
possibly reveals) are pairwise distinct. -/
theorem floodReveal_terminates_visits_once (b : Board)
    (rows cols startRow startCol : Nat) (hr : startRow < rows) (hc : startCol < cols) :
    (floodRun b rows cols startRow startCol).isSome = true ∧
    ∀ pr : Board × List (Nat × Nat),
      floodRun b rows cols startRow startCol = some pr → pr.2.Nodup := by
  refine ⟨floodRun_isSome b hr hc, ?_⟩
  rintro ⟨b2, ps⟩ h
  rw [floodRun] at h
  exact (floodAux_processed _ _ _ _ _ _ h).1

/-- Witness for `floodReveal_terminates_visits_once` on a concrete board. -/
theorem floodReveal_terminates_visits_once_case :
    (floodRun (createEmptyBoard 3 3) 3 3 1 1).isSome = true :=
  (floodReveal_terminates_visits_once (createEmptyBoard 3 3) 3 3 1 1
    (by decide) (by decide)).1

theorem mem_boundsFinset {rows cols : Nat} {p : Nat × Nat} :
    p ∈ boundsFinset rows cols ↔ p.1 < rows ∧ p.2 < cols := by
  simp [boundsFinset, Finset.mem_product]

/-- Writing one in-bounds cell that satisfies `P` in place of one that does not
adds exactly that coordinate to the set of in-bounds cells satisfying `P`. -/
theorem filter_setCell_insert {rows cols r c : Nat} (b : Board) (cell : Cell)
    (P : Cell → Prop) [DecidablePred P] (hr : r < rows) (hc : c < cols)
    (hcell : P cell) (hold : ¬ P (b r c)) :
    ((boundsFinset rows cols).filter fun q => P (setCell b r c cell q.1 q.2)) =
      insert (r, c) ((boundsFinset rows cols).filter fun q => P (b q.1 q.2)) := by
  ext q
  simp only [Finset.mem_filter, Finset.mem_insert, mem_boundsFinset]
  constructor
  · rintro ⟨hq, hP⟩
    by_cases hqe : q.1 = r ∧ q.2 = c
    · exact Or.inl (by simp [Prod.ext_iff, hqe.1, hqe.2])
    · rw [setCell_ne _ _ _ _ hqe] at hP
      exact Or.inr ⟨hq, hP⟩
  · rintro (rfl | ⟨hq, hP⟩)
    · exact ⟨⟨hr, hc⟩, by rw [setCell_self]; exact hcell⟩
    · have hqe : ¬ (q.1 = r ∧ q.2 = c) := by
        rintro ⟨h1, h2⟩
        exact hold (by rwa [← h1, ← h2])
      exact ⟨hq, by rw [setCell_ne _ _ _ _ hqe]; exact hP⟩

theorem card_filter_setCell_insert {rows cols r c : Nat} (b : Board) (cell : Cell)
    (P : Cell → Prop) [DecidablePred P] (hr : r < rows) (hc : c < cols)
    (hcell : P cell) (hold : ¬ P (b r c)) :
    ((boundsFinset rows cols).filter fun q => P (setCell b r c cell q.1 q.2)).card =
      ((boundsFinset rows cols).filter fun q => P (b q.1 q.2)).card + 1 := by
  rw [filter_setCell_insert b cell P hr hc hcell hold,
    Finset.card_insert_of_not_mem]
  simp only [Finset.mem_filter]
  exact fun hmem => hold hmem.2

/-- Overwriting one in-bounds cell that satisfies `P` with one that does not
removes exactly that coordinate from the set of in-bounds cells satisfying
`P`. -/
theorem card_filter_setCell_erase {rows cols r c : Nat} (b : Board) (cell : Cell)
    (P : Cell → Prop) [DecidablePred P] (hr : r < rows) (hc : c < cols)
    (hcell : ¬ P cell) (hold : P (b r c)) :
    ((boundsFinset rows cols).filter fun q => P (b q.1 q.2)).card =
      ((boundsFinset rows cols).filter fun q => P (setCell b r c cell q.1 q.2)).card + 1 := by
  have hset : ((boundsFinset rows cols).filter fun q => P (b q.1 q.2)) =
      insert (r, c)
        ((boundsFinset rows cols).filter fun q => P (setCell b r c cell q.1 q.2)) := by
    ext q
    simp only [Finset.mem_filter, Finset.mem_insert, mem_boundsFinset]
    constructor
    · rintro ⟨hq, hP⟩
      by_cases hqe : q.1 = r ∧ q.2 = c
      · exact Or.inl (by simp [Prod.ext_iff, hqe.1, hqe.2])
      · exact Or.inr ⟨hq, by rw [setCell_ne _ _ _ _ hqe]; exact hP⟩
    · rintro (rfl | ⟨hq, hP⟩)
      · exact ⟨⟨hr, hc⟩, hold⟩
      · by_cases hqe : q.1 = r ∧ q.2 = c
        · obtain ⟨h1, h2⟩ := hqe
          rw [h1, h2, setCell_self] at hP
          exact absurd hP hcell
        · rw [setCell_ne _ _ _ _ hqe] at hP
          exact ⟨hq, hP⟩
  rw [hset, Finset.card_insert_of_not_mem]
  simp only [Finset.mem_filter, setCell_self]
  exact fun hmem => hcell hmem.2

/-- If two boards satisfy `P` at the same in-bounds coordinates, the filtered
counts agree. -/
theorem card_filter_congr {rows cols : Nat} (b b2 : Board)
    (P : Cell → Prop) [DecidablePred P]
    (h : ∀ r c, r < rows → c < cols → (P (b2 r c) ↔ P (b r c))) :
    ((boundsFinset rows cols).filter fun q => P (b2 q.1 q.2)).card =
      ((boundsFinset rows cols).filter fun q => P (b q.1 q.2)).card := by
  congr 1
  apply Finset.filter_congr
  intro q hq
  have hb := mem_boundsFinset.1 hq
  simpa using h q.1 q.2 hb.1 hb.2

/-- The placement loop only ever writes `isMine`; `state`, `adjacentMines` and
`isExploded` of every cell are untouched. -/
theorem placeMinesLoop_preserves {mines safeRow safeCol : Nat} :
    ∀ (draws : List (Nat × Nat)) (b : Board) (placed : Nat) (b2 : Board),
      placeMinesLoop mines safeRow safeCol b placed draws = some b2 →
      ∀ r c, (b2 r c).state = (b r c).state ∧
        (b2 r c).adjacentMines = (b r c).adjacentMines ∧
        (b2 r c).isExploded = (b r c).isExploded := by
  intro draws
  induction draws with
  | nil =>
    intro b placed b2 h r c
    rw [placeMinesLoop] at h
    by_cases hm : mines ≤ placed
    · rw [if_pos hm] at h
      cases Option.some.injEq .. ▸ h
      exact ⟨rfl, rfl, rfl⟩
    · rw [if_neg hm] at h
      exact absurd h (by simp)
  | cons d rest ih =>
    intro b placed b2 h r c
    obtain ⟨dr, dc⟩ := d
    rw [placeMinesLoop] at h
    by_cases hm : mines ≤ placed
    · rw [if_pos hm] at h
      cases Option.some.injEq .. ▸ h
      exact ⟨rfl, rfl, rfl⟩
    · rw [if_neg hm] at h
      by_cases hacc : (!(b dr dc).isMine && !isSafe safeRow safeCol dr dc) = true
      · rw [if_pos hacc] at h
        have hrec := ih _ _ _ h r c
        by_cases hrc : r = dr ∧ c = dc
        · obtain ⟨rfl, rfl⟩ := hrc
          rw [setCell_self] at hrec
          exact hrec
        · rw [setCell_ne _ _ _ _ hrc] at hrec
          exact hrec
      · rw [if_neg hacc] at h
        exact ih _ _ _ h r c

/-- The placement loop never puts a mine inside the safe zone (and removes no
mine anywhere): the `isMine` bit of every safe cell is unchanged. -/
theorem placeMinesLoop_safeZone {mines safeRow safeCol : Nat} :
    ∀ (draws : List (Nat × Nat)) (b : Board) (placed : Nat) (b2 : Board),
      placeMinesLoop mines safeRow safeCol b placed draws = some b2 →
      ∀ r c, isSafe safeRow safeCol r c = true →
        (b2 r c).isMine = (b r c).isMine := by
  intro draws
  induction draws with
  | nil =>
    intro b placed b2 h r c hsafe
    rw [placeMinesLoop] at h
    by_cases hm : mines ≤ placed
    · rw [if_pos hm] at h
      cases Option.some.injEq .. ▸ h
      rfl
    · rw [if_neg hm] at h
      exact absurd h (by simp)
  | cons d rest ih =>
    intro b placed b2 h r c hsafe
    obtain ⟨dr, dc⟩ := d
    rw [placeMinesLoop] at h
    by_cases hm : mines ≤ placed
    · rw [if_pos hm] at h
      cases Option.some.injEq .. ▸ h
      rfl
    · rw [if_neg hm] at h
      by_cases hacc : (!(b dr dc).isMine && !isSafe safeRow safeCol dr dc) = true
      · rw [if_pos hacc] at h
        have hrec := ih _ _ _ h r c hsafe
        simp only [Bool.and_eq_true, Bool.not_eq_true'] at hacc
        have hrc : ¬ (r = dr ∧ c = dc) := by
          rintro ⟨rfl, rfl⟩
          rw [hsafe] at hacc
          exact absurd hacc.2 (by simp)
        rw [setCell_ne _ _ _ _ hrc] at hrec
        exact hrec
      · rw [if_neg hacc] at h
        exact ih _ _ _ h r c hsafe

/-- When every draw is in bounds and placement starts from `placed ≤ mines`
already-placed mines, a successful run of the loop raises the in-bounds mine
count by exactly `mines - placed`. -/
theorem placeMinesLoop_mineCount {rows cols mines safeRow safeCol : Nat} :
    ∀ (draws : List (Nat × Nat)) (b : Board) (placed : Nat) (b2 : Board),
      (∀ d ∈ draws, d.1 < rows ∧ d.2 < cols) →
      placed ≤ mines →
      placeMinesLoop mines safeRow safeCol b placed draws = some b2 →
      mineCount rows cols b2 = mineCount rows cols b + (mines - placed) := by
  intro draws
  induction draws with
  | nil =>
    intro b placed b2 hin hple h
    rw [placeMinesLoop] at h
    by_cases hm : mines ≤ placed
    · rw [if_pos hm] at h
      cases Option.some.injEq .. ▸ h
      have : mines - placed = 0 := Nat.sub_eq_zero_of_le hm
      omega
    · rw [if_neg hm] at h
      exact absurd h (by simp)
  | cons d rest ih =>
    intro b placed b2 hin hple h
    obtain ⟨dr, dc⟩ := d
    rw [placeMinesLoop] at h
    by_cases hm : mines ≤ placed
    · rw [if_pos hm] at h
      cases Option.some.injEq .. ▸ h
      have : mines - placed = 0 := Nat.sub_eq_zero_of_le hm
      omega
    · rw [if_neg hm] at h
      have hd := hin (dr, dc) (List.mem_cons_self _ _)
      by_cases hacc : (!(b dr dc).isMine && !isSafe safeRow safeCol dr dc) = true
      · rw [if_pos hacc] at h
        simp only [Bool.and_eq_true, Bool.not_eq_true'] at hacc
        have hrec := ih _ _ _ (fun q hq => hin q (List.mem_cons_of_mem _ hq))
          (by omega) h
        have hset : mineCount rows cols
            (setCell b dr dc { b dr dc with isMine := true }) =
            mineCount rows cols b + 1 := by
          have := card_filter_setCell_insert b
            { b dr dc with isMine := true } (fun cell => cell.isMine = true)
            hd.1 hd.2 rfl (by simp [hacc.1])
          simpa [mineCount] using this
        rw [hrec, hset]
        omega
      · rw [if_neg hacc] at h
        exact ih _ _ _ (fun q hq => hin q (List.mem_cons_of_mem _ hq)) hple h

theorem countP_congr_list {α : Type} :
    ∀ (l : List α) (p q : α → Bool), (∀ a ∈ l, p a = q a) →
      l.countP p = l.countP q := by
  intro l
  induction l with
  | nil => intro p q h; rfl
  | cons a l ih =>
    intro p q h
    rw [List.countP_cons, List.countP_cons, h a (List.mem_cons_self _ _),
      ih p q fun x hx => h x (List.mem_cons_of_mem _ hx)]

/-- The pass `computeAdjacent` writes only `adjacentMines`: every other field of every
cell is unchanged. -/
theorem computeAdjacent_preserves (rows cols : Nat) (b : Board) (r c : Nat) :
    ((computeAdjacent rows cols b) r c).isMine = (b r c).isMine ∧
    ((computeAdjacent rows cols b) r c).state = (b r c).state ∧
    ((computeAdjacent rows cols b) r c).isExploded = (b r c).isExploded := by
  unfold computeAdjacent
  by_cases h : r < rows ∧ c < cols ∧ (b r c).isMine = false
  · rw [if_pos h]
    exact ⟨rfl, rfl, rfl⟩
  · rw [if_neg h]
    exact ⟨rfl, rfl, rfl⟩

/-- C1 counterexample: on an input board that already carries a mine (here at
`(0,3)` of a 1×4 board, with safe cell `(0,0)` and `mineCount = 1`, which is at
most the 2 cells outside the clipped safe zone), `placeMines` returns a board
with 2 mines, not `mineCount = 1`. -/
theorem placeMines_premined_board_case :
    1 ≤ unsafeCellCount 1 4 0 0 ∧
    (placeMines
        (setCell (createEmptyBoard 1 4) 0 3
          { isMine := true, state := .hidden, adjacentMines := 0 })
        1 4 1 0 0 [(0, 2)]).map (mineCount 1 4) = some 2 := by
  constructor
  · decide
  · decide

/-- C1 (amended): for every mine-free input board — such as the
`createEmptyBoard` output the controller feeds it — and every configuration
with `mineCount` at most the number of in-bounds cells outside the safe zone,
whenever `placeMines` returns, the board has exactly `mineCount` mines and no
cell of the Chebyshev-1 safe zone is a mine. -/
theorem placeMines_mineCount_safeZone (rows cols mines safeRow safeCol : Nat)
    (b : Board) (draws : List (Nat × Nat)) (b2 : Board)
    (hb : ∀ r c, (b r c).isMine = false)
    (hdraws : ∀ d ∈ draws, d.1 < rows ∧ d.2 < cols)
    (hcap : mines ≤ unsafeCellCount rows cols safeRow safeCol)
    (h : placeMines b rows cols mines safeRow safeCol draws = some b2) :
    mineCount rows cols b2 = mines ∧
    ∀ r c, isSafe safeRow safeCol r c = true → (b2 r c).isMine = false := by
  rw [placeMines, Option.map_eq_some'] at h
  obtain ⟨bL, hloop, rfl⟩ := h
  have hpres : ∀ r c, ((computeAdjacent rows cols bL) r c).isMine = (bL r c).isMine :=
    fun r c => (computeAdjacent_preserves rows cols bL r c).1
  constructor
  · have h0 : mineCount rows cols b = 0 := by
      rw [mineCount, Finset.card_eq_zero, Finset.filter_eq_empty_iff]
      intro q _
      simp [hb]
    have hcount := placeMinesLoop_mineCount draws b 0 bL hdraws (Nat.zero_le _) hloop
    have hadj : mineCount rows cols (computeAdjacent rows cols bL) =
        mineCount rows cols bL := by
      rw [mineCount, mineCount]
      exact card_filter_congr bL (computeAdjacent rows cols bL)
        (fun cell => cell.isMine = true) fun r c _ _ => by
          show (computeAdjacent rows cols bL r c).isMine = true ↔ (bL r c).isMine = true
          rw [hpres r c]
    rw [hadj, hcount, h0]
    omega
  · intro r c hsafe
    rw [hpres r c, placeMinesLoop_safeZone draws b 0 bL hloop r c hsafe]
    exact hb r c

/-- The board produced by a concrete successful `placeMines` run: a 3×3 board
with a single mine at `(0,0)` placed with safe cell `(2,2)`. -/
def pmExample : Board :=
  (placeMines (createEmptyBoard 3 3) 3 3 1 2 2 [(0, 0)]).getD (createEmptyBoard 3 3)

/-- Witness for `placeMines_mineCount_safeZone` at a concrete run. -/
theorem placeMines_mineCount_safeZone_witness : mineCount 3 3 pmExample = 1 :=
  (placeMines_mineCount_safeZone 3 3 1 2 2 (createEmptyBoard 3 3) [(0, 0)]
    pmExample (fun _ _ => rfl) (by decide) (by decide) rfl).1

/-- C2: every non-mine in-bounds cell of a board returned by `placeMines` has
`adjacentMines` equal to the number of mines among its in-bounds proper Moore
neighbors. -/
theorem placeMines_adjacency (rows cols mines safeRow safeCol : Nat)
    (b : Board) (draws : List (Nat × Nat)) (b2 : Board)
    (h : placeMines b rows cols mines safeRow safeCol draws = some b2) :
    ∀ r c, r < rows → c < cols → (b2 r c).isMine = false →
      (b2 r c).adjacentMines = countAdjMines8 rows cols b2 r c := by
  rw [placeMines, Option.map_eq_some'] at h
  obtain ⟨bL, hloop, rfl⟩ := h
  intro r c hr hc hmine
  have hpres : ∀ r c, ((computeAdjacent rows cols bL) r c).isMine = (bL r c).isMine :=
    fun r c => (computeAdjacent_preserves rows cols bL r c).1
  have hbL : (bL r c).isMine = false := by rw [← hpres r c]; exact hmine
  have hval : ((computeAdjacent rows cols bL) r c).adjacentMines =
      countAdjMines rows cols bL r c := by
    rw [computeAdjacent, if_pos ⟨hr, hc, hbL⟩]
  rw [hval]
  have hstep1 : countAdjMines8 rows cols (computeAdjacent rows cols bL) r c =
      countAdjMines8 rows cols bL r c := by
    rw [countAdjMines8, countAdjMines8]
    exact countP_congr_list _ _ _ fun d _ => by rw [hpres]
  have hstep2 : countAdjMines rows cols bL r c = countAdjMines8 rows cols bL r c := by
    simp only [countAdjMines, countAdjMines8, neighborOffsets, properOffsets,
      List.countP_cons, List.countP_nil]
    have hmid : (decide (0 ≤ (r : Int) + 0 ∧ (r : Int) + 0 < (rows : Int) ∧
        0 ≤ (c : Int) + 0 ∧ (c : Int) + 0 < (cols : Int)) &&
        (bL ((r : Int) + 0).toNat ((c : Int) + 0).toNat).isMine) = false := by
      have : ((r : Int) + 0).toNat = r := by omega
      have h2 : ((c : Int) + 0).toNat = c := by omega
      rw [this, h2, hbL, Bool.and_false]
    rw [hmid]
    simp
  rw [hstep2, hstep1]

/-- Witness for `placeMines_adjacency` at the specification's 3×3 example with
one mine at `(0,0)`: the count at `(0,1)`. -/
theorem placeMines_adjacency_witness :
    (pmExample 0 1).adjacentMines = countAdjMines8 3 3 pmExample 0 1 :=
  placeMines_adjacency 3 3 1 2 2 (createEmptyBoard 3 3) [(0, 0)] pmExample rfl
    0 1 (by decide) (by decide) (by decide)

/-- A draw sequence that cycles fairly through all four cells of a 2×2 board
(the range of `Math.floor(Math.random()*2)` twice over). -/
def cycleDraws : Nat → Nat × Nat :=
  fun n => (n % 2, n / 2 % 2)

/-- On a 2×2 board every cell is inside the Chebyshev-1 safe zone of
`(0,0)`. -/
theorem isSafe_all_2x2 {r c : Nat} (hr : r < 2) (hc : c < 2) :
    isSafe 0 0 r c = true := by
  simp only [isSafe, Bool.and_eq_true, decide_eq_true_eq]
  omega

/-- With fewer than `mines` mines placed and only in-bounds 2×2 draws left,
the placement loop for `mines = 3`, safe cell `(0,0)`, can never finish: every
draw is rejected as safe. -/
theorem placeMinesLoop_2x2_none :
    ∀ (l : List (Nat × Nat)) (b : Board) (placed : Nat),
      (∀ d ∈ l, d.1 < 2 ∧ d.2 < 2) → placed < 3 →
      placeMinesLoop 3 0 0 b placed l = none := by
  intro l
  induction l with
  | nil =>
    intro b placed hin hlt
    rw [placeMinesLoop, if_neg (by omega)]
  | cons d rest ih =>
    intro b placed hin hlt
    obtain ⟨dr, dc⟩ := d
    have hd := hin (dr, dc) (List.mem_cons_self _ _)
    have hsafe : isSafe 0 0 dr dc = true := isSafe_all_2x2 hd.1 hd.2
    rw [placeMinesLoop, if_neg (by omega)]
    simp only [hsafe, Bool.not_true, Bool.and_false, Bool.false_eq_true,
      if_false]
    exact ih b placed (fun q hq => hin q (List.mem_cons_of_mem _ hq)) hlt

/-- C8 counterexample: the configuration `rows = cols = 2`, `mines = 3`
satisfies `mines < rows*cols`, yet the sampling loop does not terminate on the
fair draw sequence `cycleDraws` (no prefix of it, however long, completes the
placement): the safe zone of `(0,0)` covers the whole 2×2 board, so no draw is
ever accepted. -/
theorem placeMines_loops_forever_case :
    3 < 2 * 2 ∧
    ¬ placeMinesTerminates (createEmptyBoard 2 2) 2 2 3 0 0 cycleDraws := by
  refine ⟨by omega, ?_⟩
  rintro ⟨n, hsome⟩
  rw [placeMines, Option.isSome_map'] at hsome
  rw [placeMinesLoop_2x2_none ((List.range n).map cycleDraws)
    (createEmptyBoard 2 2) 0 ?_ (by omega)] at hsome
  · exact absurd hsome (by simp)
  · intro d hd
    rw [List.mem_map] at hd
    obtain ⟨m, -, rfl⟩ := hd
    exact ⟨Nat.mod_lt _ (by omega), Nat.mod_lt _ (by omega)⟩

/-- One accepted draw per eligible cell suffices: if the remaining draws are
pairwise distinct, in bounds, outside the safe zone and mine-free on the
current board, and there are at least `mines - placed` of them, the loop
finishes. -/
theorem placeMinesLoop_success {mines safeRow safeCol : Nat} :
    ∀ (l : List (Nat × Nat)) (b : Board) (placed : Nat),
      l.Nodup →
      (∀ d ∈ l, (b d.1 d.2).isMine = false ∧ isSafe safeRow safeCol d.1 d.2 = false) →
      mines ≤ placed + l.length →
      (placeMinesLoop mines safeRow safeCol b placed l).isSome := by
  intro l
  induction l with
  | nil =>
    intro b placed _ _ hlen
    rw [placeMinesLoop, if_pos (by simpa using hlen)]
    rfl
  | cons d rest ih =>
    intro b placed hnd hprop hlen
    obtain ⟨dr, dc⟩ := d
    by_cases hm : mines ≤ placed
    · rw [placeMinesLoop, if_pos hm]
      rfl
    · have hd := hprop (dr, dc) (List.mem_cons_self _ _)
      rw [placeMinesLoop, if_neg hm, if_pos (by rw [hd.1, hd.2]; rfl)]
      refine ih _ (placed + 1) (List.nodup_cons.1 hnd).2 ?_ ?_
      · intro q hq
        have hqne : ¬ (q.1 = dr ∧ q.2 = dc) := by
          rintro ⟨h1, h2⟩
          have : q = (dr, dc) := by
            obtain ⟨q1, q2⟩ := q
            simp only at h1 h2
            rw [h1, h2]
          exact (List.nodup_cons.1 hnd).1 (this ▸ hq)
        rw [setCell_ne _ _ _ _ hqne]
        exact hprop q (List.mem_cons_of_mem _ hq)
      · simp only [List.length_cons] at hlen
        omega

/-- C8 (amended): `checkWin`, `revealAllMines` and (for in-bounds starts) `floodReveal` are total finite
computations, but the `placeMines` sampling loop does not finish on every draw
sequence merely because `mines < rows*cols`.  What is true: whenever `mines` is at most
the number of in-bounds cells outside the safe zone, the loop finishes on a
draw sequence that enumerates those cells. -/
theorem placeMines_terminating_draws (rows cols mines safeRow safeCol : Nat)
    (hcap : mines ≤ unsafeCellCount rows cols safeRow safeCol) :
    (placeMines (createEmptyBoard rows cols) rows cols mines safeRow safeCol
      (unsafeDraws rows cols safeRow safeCol)).isSome = true := by
  rw [placeMines, Option.isSome_map']
  refine placeMinesLoop_success (unsafeDraws rows cols safeRow safeCol)
    (createEmptyBoard rows cols) 0 ?_ ?_ ?_
  · exact List.Nodup.filter _
      (List.Nodup.product (List.nodup_range rows) (List.nodup_range cols))
  · intro d hd
    refine ⟨rfl, ?_⟩
    rw [unsafeDraws, List.mem_filter] at hd
    simpa using hd.2
  · simpa [unsafeCellCount] using hcap

/-- Witness for `placeMines_terminating_draws` at a concrete configuration. -/
theorem placeMines_terminating_draws_witness :
    (placeMines (createEmptyBoard 3 3) 3 3 1 0 0 (unsafeDraws 3 3 0 0)).isSome = true :=
  placeMines_terminating_draws 3 3 1 0 0 (by decide)

theorem bool_eq_of_iff {a b : Bool} (h : a = true ↔ b = true) : a = b := by
  cases a <;> cases b <;> simp_all

/-- The per-cell pass condition of `checkWin`. -/
theorem checkWin_cell_iff (cell : Cell) :
    ((cell.isMine || (cell.state == CellState.revealed)) = true) ↔
      (cell.isMine = false → cell.state = CellState.revealed) := by
  cases hm : cell.isMine <;> simp [hm]

theorem checkWin_eq_true_iff (b : Board) (rows cols : Nat) :
    checkWin b rows cols = true ↔
      ∀ r c, r < rows → c < cols → (b r c).isMine = false →
        (b r c).state = CellState.revealed := by
  rw [checkWin]
  simp only [List.all_eq_true, List.mem_range]
  constructor
  · intro h r c hr hc hm
    exact (checkWin_cell_iff _).1 (h r hr c hc) hm
  · intro h r hr c hc
    exact (checkWin_cell_iff _).2 fun hm => h r c hr hc hm

/-- C3: `checkWin` is `true` exactly when every in-bounds non-mine cell is
revealed, and its value is unchanged by altering the states of mine cells
(flagging them or otherwise). -/
theorem checkWin_spec (b : Board) (rows cols : Nat) :
    (checkWin b rows cols = true ↔
      ∀ r c, r < rows → c < cols → (b r c).isMine = false →
        (b r c).state = CellState.revealed) ∧
    ∀ b2 : Board,
      (∀ r c, r < rows → c < cols → (b2 r c).isMine = (b r c).isMine ∧
        ((b r c).isMine = false → (b2 r c).state = (b r c).state)) →
      checkWin b2 rows cols = checkWin b rows cols := by
  refine ⟨checkWin_eq_true_iff b rows cols, ?_⟩
  intro b2 h
  apply bool_eq_of_iff
  rw [checkWin_eq_true_iff, checkWin_eq_true_iff]
  constructor
  · intro hall r c hr hc hm
    rw [← (h r c hr hc).2 hm]
    exact hall r c hr hc (by rw [(h r c hr hc).1]; exact hm)
  · intro hall r c hr hc hm
    rw [(h r c hr hc).1] at hm
    rw [(h r c hr hc).2 hm]
    exact hall r c hr hc hm

/-- Witness for `checkWin_spec`: the concrete 3×3 example board after a dig at
`(2,2)` passes `checkWin`, so its non-mine cell `(0,1)` is revealed. -/
theorem checkWin_spec_witness :
    (floodReveal pmExample 3 3 2 2 0 1).state = CellState.revealed :=
  (checkWin_spec (floodReveal pmExample 3 3 2 2) 3 3).1.1 (by decide) 0 1
    (by decide) (by decide) (by decide)

/-- C6: `revealAllMines` reveals every non-flagged mine, keeps flagged cells
flagged, marks exactly the exploded cell `isExploded` (leaving every other
cell's `isExploded` unchanged), and leaves non-mine cells untouched. -/
theorem revealAllMines_spec (b : Board) (rows cols explodedRow explodedCol : Nat)
    (hr : explodedRow < rows) (hc : explodedCol < cols)
    (hm : (b explodedRow explodedCol).isMine = true) :
    (∀ r c, r < rows → c < cols → (b r c).isMine = true →
      (b r c).state ≠ CellState.flagged →
      ((revealAllMines b rows cols explodedRow explodedCol) r c).state =
        CellState.revealed) ∧
    (∀ r c, (b r c).state = CellState.flagged →
      ((revealAllMines b rows cols explodedRow explodedCol) r c).state =
        CellState.flagged) ∧
    ((revealAllMines b rows cols explodedRow explodedCol)
        explodedRow explodedCol).isExploded = true ∧
    (∀ r c, (b r c).isMine = false →
      (revealAllMines b rows cols explodedRow explodedCol) r c = b r c) ∧
    (∀ r c, ¬(r = explodedRow ∧ c = explodedCol) →
      ((revealAllMines b rows cols explodedRow explodedCol) r c).isExploded =
        (b r c).isExploded) := by
  refine ⟨?_, ?_, ?_, ?_, ?_⟩
  · intro r c hrr hcc hmine hnf
    simp only [revealAllMines, if_pos (show r < rows ∧ c < cols ∧ (b r c).isMine = true
      from ⟨hrr, hcc, hmine⟩)]
    rw [if_pos hnf]
  · intro r c hfl
    by_cases hg : r < rows ∧ c < cols ∧ (b r c).isMine = true
    · simp only [revealAllMines, if_pos hg]
      rw [if_neg (by simp [hfl])]
      split_ifs <;> simp [hfl]
    · simp only [revealAllMines, if_neg hg]
      exact hfl
  · simp only [revealAllMines, if_pos (show explodedRow < rows ∧ explodedCol < cols ∧
      (b explodedRow explodedCol).isMine = true from ⟨hr, hc, hm⟩), and_self,
      eq_self_iff_true, if_true]
    split_ifs <;> rfl
  · intro r c hmine
    simp only [revealAllMines]
    rw [if_neg (by simp [hmine])]
  · intro r c hne
    by_cases hg : r < rows ∧ c < cols ∧ (b r c).isMine = true
    · simp only [revealAllMines, if_pos hg]
      rw [if_neg hne]
      split_ifs <;> rfl
    · simp only [revealAllMines, if_neg hg]

/-- A 2×2 board with mines at `(0,0)` (flagged) and `(0,1)` (hidden). -/
def ramExample : Board :=
  setCell (setCell (createEmptyBoard 2 2) 0 0
    { isMine := true, state := .flagged, adjacentMines := 0 }) 0 1
    { isMine := true, state := .hidden, adjacentMines := 0 }

/-- Witness for `revealAllMines_spec`: exploding `(0,1)` of `ramExample` marks
it exploded. -/
theorem revealAllMines_spec_witness :
    ((revealAllMines ramExample 2 2 0 1) 0 1).isExploded = true :=
  (revealAllMines_spec ramExample 2 2 0 1 (by decide) (by decide) (by decide)).2.2.1

/-- C7: with flag mode active and the game not over, pressing a hidden cell
flags it and increments the flag counter, pressing a flagged cell unflags it
and decrements the counter, pressing a revealed cell changes nothing, and no
flag-mode press changes the game status. -/
theorem flagMode_toggle (s : GameState) (row col : Nat) (draws : List (Nat × Nat))
    (hflag : s.isFlagMode = true)
    (hw : s.gameStatus ≠ .won) (hl : s.gameStatus ≠ .lost)
    (hr : row < (DIFFICULTY_CONFIGS s.difficulty).rows)
    (hc : col < (DIFFICULTY_CONFIGS s.difficulty).cols) :
    ((s.board row col).state = .hidden →
      handleCellPress s row col draws = some { s with
        board := setCell s.board row col { s.board row col with state := .flagged }
        flagCount := s.flagCount + 1 }) ∧
    ((s.board row col).state = .flagged →
      handleCellPress s row col draws = some { s with
        board := setCell s.board row col { s.board row col with state := .hidden }
        flagCount := s.flagCount - 1 }) ∧
    ((s.board row col).state = .revealed →
      handleCellPress s row col draws = some s) ∧
    (∀ s2, handleCellPress s row col draws = some s2 →
      s2.gameStatus = s.gameStatus) := by
  have hns : ¬ (s.gameStatus = .won ∨ s.gameStatus = .lost) := fun h => h.elim hw hl
  refine ⟨?_, ?_, ?_, ?_⟩
  · intro hst
    simp [handleCellPress, hns, hflag, hr, hc, hst]
  · intro hst
    simp [handleCellPress, hns, hflag, hr, hc, hst]
  · intro hst
    simp [handleCellPress, hns, hflag, hr, hc, hst]
  · intro s2 h
    cases hst : (s.board row col).state <;>
      simp [handleCellPress, hns, hflag, hr, hc, hst] at h <;>
      rw [← h]

/-- Witness for `flagMode_toggle`: flagging the hidden corner of a fresh
flag-mode session. -/
theorem flagMode_toggle_witness :
    handleCellPress { initialState with isFlagMode := true } 0 0 [] =
      some { { initialState with isFlagMode := true } with
        board := setCell initialState.board 0 0
          { initialState.board 0 0 with state := .flagged }
        flagCount := initialState.flagCount + 1 } :=
  (flagMode_toggle { initialState with isFlagMode := true } 0 0 [] rfl
    (by decide) (by decide) (by decide) (by decide)).1 rfl

theorem flaggedCount_congr {rows cols : Nat} {b b2 : Board}
    (h : ∀ r c, r < rows → c < cols →
      ((b2 r c).state = CellState.flagged ↔ (b r c).state = CellState.flagged)) :
    flaggedCount rows cols b2 = flaggedCount rows cols b := by
  rw [flaggedCount, flaggedCount]
  exact card_filter_congr b b2 (fun cell => cell.state = CellState.flagged)
    fun r c hr hc => by
      show (b2 r c).state = CellState.flagged ↔ (b r c).state = CellState.flagged
      exact h r c hr hc

theorem flaggedCount_createEmptyBoard (rows cols r0 c0 : Nat) :
    flaggedCount rows cols (createEmptyBoard r0 c0) = 0 := by
  rw [flaggedCount, Finset.card_eq_zero, Finset.filter_eq_empty_iff]
  intro q _
  simp [createEmptyBoard]

/-- Pointwise form of `floodReveal`: every cell is unchanged or a non-flagged
cell overwritten with `"revealed"`. -/
theorem floodReveal_pointwise (b : Board) (rows cols startRow startCol r c : Nat) :
    floodReveal b rows cols startRow startCol r c = b r c ∨
      (floodReveal b rows cols startRow startCol r c =
          { b r c with state := CellState.revealed } ∧
        (b r c).state ≠ CellState.flagged) := by
  rcases hfr : floodRun b rows cols startRow startCol with - | ⟨b2, ps⟩
  · left
    simp [floodReveal, hfr]
  · have heq : floodReveal b rows cols startRow startCol = b2 := by
      simp [floodReveal, hfr]
    rw [heq]
    rw [floodRun] at hfr
    exact floodAux_pointwise _ _ _ _ _ _ hfr r c

theorem floodReveal_flagged_iff (b : Board) (rows cols startRow startCol r c : Nat) :
    ((floodReveal b rows cols startRow startCol) r c).state = CellState.flagged ↔
      (b r c).state = CellState.flagged := by
  rcases floodReveal_pointwise b rows cols startRow startCol r c with h | ⟨h, h2⟩
  · rw [h]
  · rw [h]
    simp [h2]

/-- Pointwise form of `revealAllMines` on states. -/
theorem revealAllMines_state_cases (b : Board) (rows cols er ec r c : Nat) :
    ((revealAllMines b rows cols er ec) r c).state = (b r c).state ∨
      (((revealAllMines b rows cols er ec) r c).state = CellState.revealed ∧
        (b r c).state ≠ CellState.flagged) := by
  unfold revealAllMines
  by_cases hg : r < rows ∧ c < cols ∧ (b r c).isMine = true
  · rw [if_pos hg]
    by_cases hfl : (b r c).state ≠ CellState.flagged
    · rw [if_pos hfl]
      exact Or.inr ⟨rfl, hfl⟩
    · rw [if_neg hfl]
      split_ifs <;> exact Or.inl rfl
  · rw [if_neg hg]
    exact Or.inl rfl

theorem revealAllMines_flagged_iff (b : Board) (rows cols er ec r c : Nat) :
    ((revealAllMines b rows cols er ec) r c).state = CellState.flagged ↔
      (b r c).state = CellState.flagged := by
  rcases revealAllMines_state_cases b rows cols er ec r c with h | ⟨h, h2⟩
  · rw [h]
  · rw [h]
    simp [h2]

theorem placeMines_state_eq {b : Board} {rows cols mines safeRow safeCol : Nat}
    {draws : List (Nat × Nat)} {b2 : Board}
    (h : placeMines b rows cols mines safeRow safeCol draws = some b2) :
    ∀ r c, (b2 r c).state = (b r c).state := by
  rw [placeMines, Option.map_eq_some'] at h
  obtain ⟨bL, hloop, rfl⟩ := h
  intro r c
  rw [(computeAdjacent_preserves rows cols bL r c).2.1,
    (placeMinesLoop_preserves draws b 0 bL hloop r c).1]

/-- The transform `digStep` leaves difficulty, flag counter items and the flagged set of the
board unchanged (mines are revealed, floods reveal, but no flag is created or
destroyed). -/
theorem digStep_preserves (t : GameState) (row col : Nat) (cfg : DifficultyConfig) :
    (digStep t row col cfg).difficulty = t.difficulty ∧
    (digStep t row col cfg).flagCount = t.flagCount ∧
    flaggedCount cfg.rows cfg.cols (digStep t row col cfg).board =
      flaggedCount cfg.rows cfg.cols t.board := by
  unfold digStep
  by_cases hm : (t.board row col).isMine = true
  · rw [if_pos hm]
    refine ⟨rfl, rfl, ?_⟩
    exact flaggedCount_congr fun r c _ _ =>
      revealAllMines_flagged_iff t.board cfg.rows cfg.cols row col r c
  · rw [if_neg hm]
    dsimp only
    split_ifs <;>
      exact ⟨rfl, rfl, flaggedCount_congr fun r c _ _ =>
        floodReveal_flagged_iff t.board cfg.rows cfg.cols row col r c⟩

/-- The transform `digStep` never produces a `"question"` cell. -/
theorem digStep_no_question (t : GameState) (row col : Nat) (cfg : DifficultyConfig)
    (ih : ∀ r c, (t.board r c).state ≠ CellState.question) :
    ∀ r c, ((digStep t row col cfg).board r c).state ≠ CellState.question := by
  intro r c
  unfold digStep
  by_cases hm : (t.board row col).isMine = true
  · rw [if_pos hm]
    rcases revealAllMines_state_cases t.board cfg.rows cfg.cols row col r c with h | ⟨h, -⟩
    · show (revealAllMines t.board cfg.rows cfg.cols row col r c).state ≠ _
      rw [h]
      exact ih r c
    · show (revealAllMines t.board cfg.rows cfg.cols row col r c).state ≠ _
      rw [h]
      simp
  · rw [if_neg hm]
    have hfl : ((floodReveal t.board cfg.rows cfg.cols row col) r c).state ≠
        CellState.question := by
      rcases floodReveal_pointwise t.board cfg.rows cfg.cols row col r c with h | ⟨h, -⟩
      · rw [h]; exact ih r c
      · rw [h]; simp
    dsimp only
    split_ifs <;> exact hfl

/-- Exhaustive characterization of a successful `handleCellPress`: the press is
a no-op, a flag toggle on an in-bounds cell, or a dig (`digStep`) from an
intermediate state that differs from `s` at most by mine placement (which
preserves all cell states), status and the first-click latch. -/
theorem handleCellPress_cases {s : GameState} {row col : Nat}
    {draws : List (Nat × Nat)} {s' : GameState}
    (h : handleCellPress s row col draws = some s') :
    s' = s ∨
    (row < (DIFFICULTY_CONFIGS s.difficulty).rows ∧
     col < (DIFFICULTY_CONFIGS s.difficulty).cols ∧
     (((s.board row col).state = CellState.hidden ∧
        s' = { s with
          board := setCell s.board row col
            { s.board row col with state := .flagged }
          flagCount := s.flagCount + 1 }) ∨
      ((s.board row col).state = CellState.flagged ∧
        s' = { s with
          board := setCell s.board row col
            { s.board row col with state := .hidden }
          flagCount := s.flagCount - 1 }))) ∨
    (∃ t : GameState, t.difficulty = s.difficulty ∧ t.flagCount = s.flagCount ∧
      (∀ r c, (t.board r c).state = (s.board r c).state) ∧
      s' = digStep t row col (DIFFICULTY_CONFIGS s.difficulty)) := by
  unfold handleCellPress at h
  by_cases h1 : s.gameStatus = .won ∨ s.gameStatus = .lost
  · rw [if_pos h1] at h
    simp only [Option.some.injEq] at h
    exact Or.inl h.symm
  · rw [if_neg h1] at h
    dsimp only at h
    by_cases h2 : row < (DIFFICULTY_CONFIGS s.difficulty).rows ∧
        col < (DIFFICULTY_CONFIGS s.difficulty).cols
    · rw [if_pos h2] at h
      by_cases h3 : s.isFlagMode = true
      · rw [if_pos h3] at h
        cases hst : (s.board row col).state with
        | hidden =>
          simp only [hst, reduceCtorEq, eq_self_iff_true, if_true, if_false,
            Option.some.injEq] at h
          exact Or.inr (Or.inl ⟨h2.1, h2.2, Or.inl ⟨rfl, h.symm⟩⟩)
        | revealed =>
          simp only [hst, reduceCtorEq, eq_self_iff_true, if_true, if_false,
            Option.some.injEq] at h
          exact Or.inl h.symm
        | flagged =>
          simp only [hst, reduceCtorEq, eq_self_iff_true, if_true, if_false,
            Option.some.injEq] at h
          exact Or.inr (Or.inl ⟨h2.1, h2.2, Or.inr ⟨rfl, h.symm⟩⟩)
        | question =>
          simp only [hst, reduceCtorEq, eq_self_iff_true, if_true, if_false,
            Option.some.injEq] at h
          exact Or.inl h.symm
      · rw [if_neg h3] at h
        by_cases h4 : (s.board row col).state = CellState.flagged ∨
            (s.board row col).state = CellState.revealed
        · rw [if_pos h4] at h
          simp only [Option.some.injEq] at h
          exact Or.inl h.symm
        · rw [if_neg h4] at h
          by_cases h5 : s.isFirstClick = true
          · rw [if_pos h5] at h
            cases hpm : placeMines s.board (DIFFICULTY_CONFIGS s.difficulty).rows
                (DIFFICULTY_CONFIGS s.difficulty).cols
                (DIFFICULTY_CONFIGS s.difficulty).mines row col draws with
            | none =>
              rw [hpm] at h
              simp at h
            | some nb =>
              rw [hpm] at h
              dsimp only at h
              simp only [Option.some.injEq] at h
              exact Or.inr (Or.inr ⟨⟨s.difficulty, nb, GameStatus.playing,
                s.flagCount, s.elapsedTime, s.isFlagMode, false⟩, rfl, rfl,
                placeMines_state_eq hpm, h.symm⟩)
          · rw [if_neg h5] at h
            simp only [Option.some.injEq] at h
            exact Or.inr (Or.inr ⟨s, rfl, rfl, fun r c => rfl, h.symm⟩)
    · rw [if_neg h2] at h
      simp at h

/-- C9: in every reachable session state the controller's flag counter equals
the number of flagged cells on the current board, and hence `remainingMines`
equals the configured mine count minus the number of flagged cells. -/
theorem flagCounter_matches_board : ∀ s : GameState, Reachable s →
    s.flagCount = (flaggedCount (DIFFICULTY_CONFIGS s.difficulty).rows
      (DIFFICULTY_CONFIGS s.difficulty).cols s.board : Int) ∧
    remainingMines s = ((DIFFICULTY_CONFIGS s.difficulty).mines : Int) -
      (flaggedCount (DIFFICULTY_CONFIGS s.difficulty).rows
        (DIFFICULTY_CONFIGS s.difficulty).cols s.board : Int) := by
  have main : ∀ s : GameState, Reachable s →
      s.flagCount = (flaggedCount (DIFFICULTY_CONFIGS s.difficulty).rows
        (DIFFICULTY_CONFIGS s.difficulty).cols s.board : Int) := by
    intro s h
    induction h with
    | init =>
      simp [initialState, DIFFICULTY_CONFIGS, flaggedCount_createEmptyBoard]
    | @next s s' e hreach hstep ih =>
      cases e with
      | press row col draws =>
        dsimp only [step] at hstep
        rcases handleCellPress_cases hstep with rfl | ⟨hr, hc, hcase⟩ | ⟨t, htd, htf, hts, rfl⟩
        · exact ih
        · rcases hcase with ⟨hst, rfl⟩ | ⟨hst, rfl⟩
          · have hcnt : flaggedCount (DIFFICULTY_CONFIGS s.difficulty).rows
                (DIFFICULTY_CONFIGS s.difficulty).cols
                (setCell s.board row col
                  { s.board row col with state := CellState.flagged }) =
                flaggedCount (DIFFICULTY_CONFIGS s.difficulty).rows
                  (DIFFICULTY_CONFIGS s.difficulty).cols s.board + 1 :=
              card_filter_setCell_insert s.board
                { s.board row col with state := CellState.flagged }
                (fun cell => cell.state = CellState.flagged) hr hc rfl
                (by simp [hst])
            show s.flagCount + 1 = _
            dsimp only
            rw [hcnt, ih]
            push_cast
            ring
          · have hcnt : flaggedCount (DIFFICULTY_CONFIGS s.difficulty).rows
                (DIFFICULTY_CONFIGS s.difficulty).cols s.board =
                flaggedCount (DIFFICULTY_CONFIGS s.difficulty).rows
                  (DIFFICULTY_CONFIGS s.difficulty).cols
                  (setCell s.board row col
                    { s.board row col with state := CellState.hidden }) + 1 :=
              card_filter_setCell_erase s.board
                { s.board row col with state := CellState.hidden }
                (fun cell => cell.state = CellState.flagged) hr hc
                (by simp) hst
            show s.flagCount - 1 = _
            dsimp only
            rw [ih, hcnt]
            push_cast
            ring
        · obtain ⟨hd, hf, hcnt⟩ := digStep_preserves t row col
            (DIFFICULTY_CONFIGS s.difficulty)
          rw [hf, htf, hd, htd, hcnt,
            show flaggedCount (DIFFICULTY_CONFIGS s.difficulty).rows
                (DIFFICULTY_CONFIGS s.difficulty).cols t.board =
              flaggedCount (DIFFICULTY_CONFIGS s.difficulty).rows
                (DIFFICULTY_CONFIGS s.difficulty).cols s.board from
              flaggedCount_congr (fun r c _ _ => by rw [hts r c])]
          exact ih
      | toggleFlagMode =>
        dsimp only [step] at hstep
        simp only [Option.some.injEq] at hstep
        subst hstep
        exact ih
      | reset d =>
        dsimp only [step] at hstep
        simp only [Option.some.injEq] at hstep
        subst hstep
        simp [resetGame, flaggedCount_createEmptyBoard]
      | timerTick =>
        dsimp only [step, tick] at hstep
        split_ifs at hstep <;>
          (simp only [Option.some.injEq] at hstep; subst hstep; exact ih)
  intro s h
  refine ⟨main s h, ?_⟩
  rw [remainingMines, main s h]

/-- Witness for `flagCounter_matches_board` at the initial state. -/
theorem flagCounter_matches_board_witness :
    initialState.flagCount =
      (flaggedCount (DIFFICULTY_CONFIGS initialState.difficulty).rows
        (DIFFICULTY_CONFIGS initialState.difficulty).cols initialState.board : Int) :=
  (flagCounter_matches_board initialState Reachable.init).1

/-- C10: although `CellState` has a `"question"` alternative, no reachable
board ever holds it: the initial board is all-hidden and every operation
writes only `"hidden"`, `"flagged"` or `"revealed"`. -/
theorem no_question_reachable : ∀ s : GameState, Reachable s →
    ∀ r c, (s.board r c).state ≠ CellState.question := by
  intro s h
  induction h with
  | init =>
    intro r c
    simp [initialState, createEmptyBoard]
  | @next s s' e hreach hstep ih =>
    cases e with
    | press row col draws =>
      dsimp only [step] at hstep
      rcases handleCellPress_cases hstep with rfl | ⟨hr, hc, hcase⟩ | ⟨t, -, -, hts, rfl⟩
      · exact ih
      · rcases hcase with ⟨hst, rfl⟩ | ⟨hst, rfl⟩
        · intro r c
          dsimp only
          by_cases hrc : r = row ∧ c = col
          · obtain ⟨rfl, rfl⟩ := hrc
            rw [setCell_self]
            simp
          · rw [setCell_ne _ _ _ _ hrc]
            exact ih r c
        · intro r c
          dsimp only
          by_cases hrc : r = row ∧ c = col
          · obtain ⟨rfl, rfl⟩ := hrc
            rw [setCell_self]
            simp
          · rw [setCell_ne _ _ _ _ hrc]
            exact ih r c
      · exact digStep_no_question t row col _
          fun r c => by rw [hts r c]; exact ih r c
    | toggleFlagMode =>
      dsimp only [step] at hstep
      simp only [Option.some.injEq] at hstep
      subst hstep
      exact ih
    | reset d =>
      dsimp only [step] at hstep
      simp only [Option.some.injEq] at hstep
      subst hstep
      intro r c
      simp [resetGame, createEmptyBoard]
    | timerTick =>
      dsimp only [step, tick] at hstep
      split_ifs at hstep <;>
        (simp only [Option.some.injEq] at hstep; subst hstep; exact ih)

/-- Witness for `no_question_reachable` at the initial state. -/
theorem no_question_reachable_witness :
    (initialState.board 0 0).state ≠ CellState.question :=
  no_question_reachable initialState Reachable.init 0 0
